import Mathlib

/-!
Verification of the Kindelia node core (src/node.rs): block graph, fork
choice, difficulty arithmetic and the body codec, shallowly embedded in
Lean.  Machine integers are modelled as Nat with explicit wrapping where
the Rust code can overflow (u8 and u128 arithmetic wrap in release
builds; the uint-based U256 operations panic on overflow and are guarded
explicitly).  Rust panics and divergence are modelled by an Option or a
three-valued result.  The 256-bit cryptographic hash over byte strings is
an assumed primitive in the specification, so the embedding is
parameterised by it (field hashBytes of Env below); each concrete
execution instantiates it with a simple executable function.
-/

-- ## Association-list maps (the U256Map fields of Node)

def mlookup {α : Type} : List (Nat × α) → Nat → Option α
  | [], _ => none
  | (k, v) :: rest, h => if k = h then some v else mlookup rest h

def minsert {α : Type} : List (Nat × α) → Nat → α → List (Nat × α)
  | [], k, v => [(k, v)]
  | (k', v') :: rest, k, v =>
      if k' = k then (k, v) :: rest else (k', v') :: minsert rest k v

def mremove {α : Type} : List (Nat × α) → Nat → List (Nat × α)
  | [], _ => []
  | (k', v') :: rest, k =>
      if k' = k then mremove rest k else (k', v') :: mremove rest k

-- ## Constants (node.rs)

def HASH_SIZE : Nat := 32
def BODY_SIZE : Nat := 1280
def MINE_ATTEMPTS : Nat := 1024
def TIME_PER_BLOCK : Nat := 3000
def DELAY_TOLERANCE : Nat := 60 * 60 * 1000
def BLOCKS_PER_PERIOD : Nat := 20
def TIME_PER_PERIOD : Nat := TIME_PER_BLOCK * BLOCKS_PER_PERIOD
def INITIAL_DIFFICULTY : Nat := 256

-- ## Difficulty arithmetic (node.rs, target_to_difficulty and friends)

/-- The U256 constant 0xFFFF...FF used by both conversions: 2^256 - 1. -/
def p256 : Nat := 2 ^ 256 - 1

/-- Converts a target to a difficulty: p256 / (p256 - target), floor
division on U256 values. -/
def target_to_difficulty (target : Nat) : Nat :=
  p256 / (p256 - target)

/-- Converts a difficulty to a target: p256 - p256 / difficulty. -/
def difficulty_to_target (difficulty : Nat) : Nat :=
  p256 - p256 / difficulty

/-- Computes the next target by scaling the current difficulty by a
32-bit fixed point factor. -/
def compute_next_target (last_target scale : Nat) : Nat :=
  let p32 : Nat := 2 ^ 32
  let last_difficulty := target_to_difficulty last_target
  let next_difficulty := 1 + (last_difficulty * scale - 1) / p32
  difficulty_to_target next_difficulty

/-- Estimates how many hashes were necessary to get this one (zero for
the zero hash). -/
def get_hash_work (hash : Nat) : Nat :=
  if hash = 0 then 0 else target_to_difficulty hash

/-- Initial target of 256 hashes per block. -/
def INITIAL_TARGET : Nat := difficulty_to_target INITIAL_DIFFICULTY

-- ## Transactions and the body codec

structure Transaction where
  data : List Nat
  hash : Nat
  deriving DecidableEq

/-- Number of padding zero bytes appended by Transaction::new so that the
length becomes a positive multiple of 5 (the while loop in the source
pushes one zero byte at a time until that condition holds). -/
def padLen (n : Nat) : Nat :=
  if n = 0 then 5 else (5 - n % 5) % 5

/-- The u8 length byte of a transaction: (data.len() - 1) / 5 as u8. -/
def Transaction.len_byte (t : Transaction) : Nat :=
  ((t.data.length - 1) / 5) % 256

/-- Number of body bytes occupied by a record with the given length
byte: ((len_byte + 1) * 5) computed in u8 arithmetic, hence wrapping
modulo 256 (release-build semantics; a debug build panics instead when
(len_byte + 1) * 5 exceeds 255). -/
def Transaction.len_byte_to_len (len_byte : Nat) : Nat :=
  ((len_byte + 1) * 5) % 256

-- ## The abstract environment: assumed cryptographic primitives

/-- The externally assumed primitives: the 256-bit hash over byte strings
(hash_bytes in the source, backed by Keccak256) and, modelled from the
spec, statement deserialisation (bits.rs, not under src/): a transaction
either decodes to a statement or is skipped, so only the success
predicate is observable to the node core. -/
structure Env where
  hashBytes : List Nat → Nat
  decode : List Nat → Bool

/-- Transaction::new: right-pads the data with zero bytes until its
length is a positive multiple of 5, then hashes the padded data. -/
def Transaction.new (E : Env) (data : List Nat) : Transaction :=
  let padded := data ++ List.replicate (padLen data.length) 0
  { data := padded, hash := E.hashBytes padded }

/-- The parsing loop of extract_transactions.  Rust slice indexing that
would be out of bounds is modelled by returning none (a panic); the
source guards every access, and theorem c10 proves the guards suffice
for 1280-byte bodies. -/
def extract_transactions_loop (E : Env) (body : List Nat) :
    Nat → Nat → List Transaction → Option (List Transaction)
  | _, 0, acc => some acc.reverse
  | index, count + 1, acc =>
      if BODY_SIZE ≤ index then some acc.reverse
      else
        match body.get? index with
        | none => none
        | some len_byte =>
            let index' := index + 1
            let len_used := Transaction.len_byte_to_len len_byte
            if BODY_SIZE < index' + len_used then some acc.reverse
            else if index' + len_used ≤ body.length then
              extract_transactions_loop E body (index' + len_used) count
                (Transaction.new E ((body.drop index').take len_used) :: acc)
            else none

/-- Converts a body to a vector of transactions (node.rs,
extract_transactions).  The body is a byte list; in Rust its length is
fixed at BODY_SIZE = 1280 by the type. -/
def extract_transactions (E : Env) (body : List Nat) : Option (List Transaction) :=
  match body.get? 0 with
  | none => none
  | some tx_count => extract_transactions_loop E body 1 tx_count []

-- ## A trivial concrete environment for witnesses about the codec

/-- A concrete instantiation of the assumed primitives, used by closed
witnesses that do not depend on hash values. -/
def Etriv : Env := { hashBytes := fun _ => 0, decode := fun _ => false }

-- ## Blocks, hashing and the genesis identity

structure Block where
  time : Nat
  rand : Nat
  prev : Nat
  body : List Nat
  deriving DecidableEq

/-- Modelled from the spec: little-endian 32-byte serialisation of a
256-bit number (u256_to_bytes lives in util.rs, outside src/). -/
def u256_to_bytes (n : Nat) : List Nat :=
  (List.range 32).map (fun i => n / 256 ^ i % 256)

/-- Modelled from the spec: little-endian 16-byte serialisation of a
128-bit number (u128_to_bytes lives in util.rs, outside src/). -/
def u128_to_bytes (n : Nat) : List Nat :=
  (List.range 16).map (fun i => n / 256 ^ i % 256)

/-- Hashes a U256 value. -/
def hash_u256 (E : Env) (value : Nat) : Nat :=
  E.hashBytes (u256_to_bytes value)

/-- Hashes a block: any block with time == 0 hashes the empty byte
string (the genesis identity); otherwise prev, time, rand and the body
are concatenated and hashed. -/
def hash_block (E : Env) (b : Block) : Nat :=
  if b.time = 0 then E.hashBytes []
  else E.hashBytes (u256_to_bytes b.prev ++ u128_to_bytes b.time ++
    u128_to_bytes b.rand ++ b.body)

/-- The hash of the genesis block parent. -/
def ZERO_HASH (E : Env) : Nat := hash_u256 E 0

/-- The genesis block. -/
def GENESIS_BLOCK (E : Env) : Block :=
  { prev := ZERO_HASH E, time := 0, rand := 0, body := List.replicate BODY_SIZE 0 }

-- ## The runtime collaborator

/-- Modelled from the spec: the opaque transaction execution runtime
(hvm.rs, outside src/).  Only its logical tick is observable to the
claims: get_tick returns the applied-block count, tick() advances it by
one, and rollback(t) returns to the most recent internal snapshot at a
tick at most t.  This model keeps a snapshot at every tick, the most
permissive compliant instantiation, so rollback(t) yields min t tick.
run_statements only mutates the hidden part of the state, so it is not
represented. -/
structure Runtime where
  tick : Nat
  deriving DecidableEq

def init_runtime : Runtime := { tick := 0 }

def Runtime.rollback (r : Runtime) (t : Nat) : Runtime := { tick := min t r.tick }

-- ## The node state (the graph-owning fields of struct Node)

/-- The block-graph fields of struct Node.  The network, disk-path and
peer-registry fields are ports to the outside world and are not part of
the graph model; the maps are association lists keyed by the 256-bit
hash.  StatementResult values are opaque to every claim, so a result is
modelled as Unit. -/
structure NodeState where
  tip : Nat
  block : List (Nat × Block)
  waiting : List (Nat × Block)
  wait_list : List (Nat × List Nat)
  children : List (Nat × List Nat)
  work : List (Nat × Nat)
  target : List (Nat × Nat)
  height : List (Nat × Nat)
  results : List (Nat × List Unit)
  pool : List Transaction
  runtime : Runtime
  deriving DecidableEq

def workD (s : NodeState) (h : Nat) : Nat := (mlookup s.work h).getD 0
def heightD (s : NodeState) (h : Nat) : Nat := (mlookup s.height h).getD 0
def targetD (s : NodeState) (h : Nat) : Nat := (mlookup s.target h).getD 0
def timeD (s : NodeState) (h : Nat) : Nat := ((mlookup s.block h).map Block.time).getD 0

/-- u128 wrapping subtraction (release-build semantics of btime - time). -/
def u128_sub (a b : Nat) : Nat :=
  (a % 2 ^ 128 + 2 ^ 128 - b % 2 ^ 128) % 2 ^ 128

/-- Walks n steps towards genesis: checkpoint = block[checkpoint].prev,
n times; none models the panic of a missing map entry. -/
def walkPrevN (blockm : List (Nat × Block)) : Nat → Nat → Option Nat
  | 0, h => some h
  | n + 1, h =>
      match mlookup blockm h with
      | none => none
      | some b => walkPrevN blockm n b.prev

/-- Computes one block during replay: extract the transactions, keep the
ones that decode to statements, run them, store the result vector under
the block hash, and advance the runtime tick by one. -/
def compute_block (E : Env) (s : NodeState) (blk : Block) : NodeState :=
  let transactions := (extract_transactions E blk.body).getD []
  let statements := transactions.filter (fun t => E.decode t.data)
  let result : List Unit := statements.map (fun _ => ())
  { s with results := minsert s.results (hash_block E blk) result,
           runtime := { tick := s.runtime.tick + 1 } }

-- ## The reorg walk loops of add_block

/-- Reorg step 1: while height[new] > height[old], push new and step to
its parent.  Fuel bounds the walk; exhaustion models divergence on a
cyclic graph, and none also models the panic of a missing map entry. -/
def reorgLoop1 (s : NodeState) (oldh : Nat) : Nat → Nat → List Nat → Option (Nat × List Nat)
  | 0, newb, acc =>
      if oldh < heightD s newb then none else some (newb, acc)
  | fuel + 1, newb, acc =>
      if oldh < heightD s newb then
        match mlookup s.block newb with
        | none => none
        | some blk => reorgLoop1 s oldh fuel blk.prev (newb :: acc)
      else some (newb, acc)

/-- Reorg step 2: while height[old] > height[new], step old to its
parent. -/
def reorgLoop2 (s : NodeState) (newh : Nat) : Nat → Nat → Option Nat
  | 0, oldb =>
      if newh < heightD s oldb then none else some oldb
  | fuel + 1, oldb =>
      if newh < heightD s oldb then
        match mlookup s.block oldb with
        | none => none
        | some blk => reorgLoop2 s newh fuel blk.prev
      else some oldb

/-- Reorg step 3: while old and new differ, push new and step both to
their parents; ends at the lowest common ancestor. -/
def reorgLoop3 (s : NodeState) : Nat → Nat → Nat → List Nat → Option (Nat × List Nat)
  | 0, oldb, newb, acc =>
      if oldb = newb then some (oldb, acc) else none
  | fuel + 1, oldb, newb, acc =>
      if oldb = newb then some (oldb, acc)
      else
        match mlookup s.block oldb, mlookup s.block newb with
        | some ob, some nb => reorgLoop3 s fuel ob.prev nb.prev (newb :: acc)
        | _, _ => none

/-- Reorg step 5: while the requested tick is above the tick the runtime
actually rolled back to, push new and step to its parent. -/
def gapLoop (s : NodeState) (rt : Nat) : Nat → Nat → List Nat → Option (List Nat)
  | 0, _, acc => some acc
  | tick + 1, newb, acc =>
      if rt < tick + 1 then
        match mlookup s.block newb with
        | none => none
        | some blk => gapLoop s rt tick blk.prev (newb :: acc)
      else some acc

/-- Reorg step 6: computes every collected block, in reverse push order
(the accumulator lists hold the most recent push first, so this folds
head first). -/
def computeBlocks (E : Env) : NodeState → List Nat → Option NodeState
  | s, [] => some s
  | s, h :: rest =>
      match mlookup s.block h with
      | none => none
      | some blk => computeBlocks E (compute_block E s blk) rest

/-- The reorganisation and replay block of add_block, entered when the
tip moved from old_tip to new_tip: the two-cursor LCA walk, the disk
persistence of the overwritten blocks (only its panicking map lookups
are modelled; the write itself is I/O), the runtime rollback, the
snapshot-gap fixup, and the replay.  Only results and runtime change. -/
def reorg (E : Env) (s : NodeState) (old_tip new_tip : Nat) : Option NodeState :=
  let fuel := s.block.length + 1
  match reorgLoop1 s (heightD s old_tip) fuel new_tip [] with
  | none => none
  | some (newb1, acc1) =>
    match reorgLoop2 s (heightD s newb1) fuel old_tip with
    | none => none
    | some oldb2 =>
      match reorgLoop3 s fuel oldb2 newb1 acc1 with
      | none => none
      | some (lca, acc2) =>
        if acc2.all (fun h => (mlookup s.height h).isSome) then
          let tick := heightD s lca
          let rt := (s.runtime.rollback tick).tick
          match gapLoop s rt tick lca acc2 with
          | none => none
          | some acc3 => computeBlocks E { s with runtime := { tick := rt } } acc3
        else none

-- ## The gate-passing branch of add_block

/-- The target stored for a freshly validated block: recomputed from the
checkpoint ancestor when the new height starts a period, otherwise the
parent target.  s2 is the state right after the work and height of the
new block were set; none models a Rust panic (a missing map entry during
the checkpoint walk, a zero elapsed period, or the U256 overflow and
underflow panics inside the compute_next_target arithmetic). -/
def retargetValue (s2 : NodeState) (b : Block) (bhash : Nat) : Option Nat :=
  let hb := heightD s2 bhash
  if 0 < hb ∧ BLOCKS_PER_PERIOD < hb ∧ hb % BLOCKS_PER_PERIOD = 1 then
    match walkPrevN s2.block (BLOCKS_PER_PERIOD - 1) b.prev with
    | none => none
    | some checkpoint_hash =>
      match mlookup s2.block checkpoint_hash with
      | none => none
      | some cpb =>
        let period_time := u128_sub b.time cpb.time
        if period_time = 0 then none
        else
          let last_target := targetD s2 b.prev
          let next_scaler := 2 ^ 32 * TIME_PER_PERIOD / period_time
          let prod := target_to_difficulty last_target * next_scaler
          if prod = 0 ∨ 2 ^ 256 ≤ prod then none
          else some (compute_next_target last_target next_scaler)
  else some (targetD s2 b.prev)

/-- The branch of add_block taken when the PoW hits the target and the
timestamp advances: set work and height, set the (possibly retargeted)
target, sweep the pool, and move the tip with reorg when the new work
exceeds the work of the current tip.  s1 is the state right after the
five shell inserts; none models a Rust panic (U256 overflow of the
accumulated work, or a panic inside retargetValue or reorg). -/
def includeValid (E : Env) (s1 : NodeState) (b : Block) (bhash : Nat) : Option NodeState :=
  let wrk := get_hash_work bhash
  let nw := workD s1 b.prev + wrk
  if 2 ^ 256 ≤ nw then none
  else
    let s2 : NodeState := { s1 with
      work := minsert s1.work bhash nw,
      height := minsert s1.height bhash (heightD s1 b.prev + 1) }
    match retargetValue s2 b bhash with
    | none => none
    | some tv =>
      let s3 : NodeState := { s2 with target := minsert s2.target bhash tv }
      let txs := (extract_transactions E b.body).getD []
      let s4 : NodeState := { s3 with
        pool := txs.foldl (fun p t => p.filter (fun q => q.hash ≠ t.hash)) s3.pool }
      if workD s4 s4.tip < workD s4 bhash then
        reorg E { s4 with tip := bhash } s4.tip bhash
      else some s4

-- ## Promotion of the wait list and the main loop

/-- Promotes the dependants recorded under a freshly included hash: each
one is removed from waiting and pushed onto the work stack, in order;
none models the panic of the .expect call when a wait-listed hash is
missing from waiting. -/
def promote (waiting : List (Nat × Block)) (stack : List Block) :
    List Nat → Option (List (Nat × Block) × List Block)
  | [] => some (waiting, stack)
  | h :: rest =>
      match mlookup waiting h with
      | none => none
      | some blk => promote (mremove waiting h) (blk :: stack) rest

/-- Result of the add_block worklist loop: a final state, a Rust panic,
or fuel exhaustion (the lemmas below show the fuel chosen by add_block
never runs out). -/
inductive Res where
  | ok (s : NodeState)
  | panic
  | oof
  deriving DecidableEq

/-- The worklist loop of add_block.  The head of the stack is the most
recently pushed block, matching the Vec push and pop of the source; now
is the value of get_time() during the call. -/
def addLoopF (E : Env) (now : Nat) : Nat → NodeState → List Block → Res
  | _, s, [] => Res.ok s
  | 0, _, _ :: _ => Res.oof
  | fuel + 1, s, b :: stack =>
    if now + DELAY_TOLERANCE ≤ b.time then addLoopF E now fuel s stack
    else
      let bhash := hash_block E b
      if (mlookup s.block bhash).isSome then addLoopF E now fuel s stack
      else
        match mlookup s.block b.prev with
        | some _ =>
          let s1 : NodeState := { s with
            block := minsert s.block bhash b,
            work := minsert s.work bhash 0,
            height := minsert s.height bhash 0,
            target := minsert s.target bhash 0,
            children := minsert s.children bhash [] }
          let gateRes : Option NodeState :=
            if targetD s1 b.prev ≤ bhash ∧ timeD s1 b.prev < b.time then
              includeValid E s1 b bhash
            else some s1
          match gateRes with
          | none => Res.panic
          | some s6 =>
            let s7 : NodeState := { s6 with
              children := minsert s6.children b.prev [bhash] }
            match mlookup s7.wait_list bhash with
            | some wl =>
              match promote s7.waiting stack wl with
              | none => Res.panic
              | some (w2, stack2) =>
                addLoopF E now fuel
                  { s7 with waiting := w2, wait_list := mremove s7.wait_list bhash } stack2
            | none => addLoopF E now fuel s7 stack
        | none =>
          if (mlookup s.waiting bhash).isNone then
            addLoopF E now fuel
              { s with waiting := minsert s.waiting bhash b,
                       wait_list := minsert s.wait_list b.prev [bhash] } stack
          else addLoopF E now fuel s stack

/-- Fuel that provably suffices for the worklist loop (see
addLoopF_no_oof below). -/
def addBlockFuel (s : NodeState) : Nat :=
  (s.waiting.length + 1) * (s.waiting.length + 1) + 2

/-- Registers a block on the node database (Node::add_block); some is
the post state, none a Rust panic (or divergence on a corrupted
graph). -/
def add_block (E : Env) (now : Nat) (s : NodeState) (b : Block) : Option NodeState :=
  match addLoopF E now (addBlockFuel s) s [b] with
  | Res.ok s' => some s'
  | _ => none

/-- The node state built by Node::new. -/
def init_node (E : Env) : NodeState :=
  { tip := ZERO_HASH E,
    block := [(ZERO_HASH E, GENESIS_BLOCK E)],
    waiting := [],
    wait_list := [],
    children := [(ZERO_HASH E, [])],
    work := [(ZERO_HASH E, 0)],
    height := [(ZERO_HASH E, 0)],
    target := [(ZERO_HASH E, INITIAL_TARGET)],
    results := [(ZERO_HASH E, [])],
    pool := [],
    runtime := init_runtime }

/-- The states a node can reach from the initial state by any sequence
of add_block calls, at any wall-clock times. -/
inductive Reachable (E : Env) : NodeState → Prop
  | init : Reachable E (init_node E)
  | step {s s' : NodeState} (now : Nat) (b : Block) :
      Reachable E s → add_block E now s b = some s' → Reachable E s'

-- ## Concrete environments and blocks used by the counterexample runs

/-- A concrete hash primitive with small hash values: the hash of a
serialised block is the low byte of its timestamp (byte 32 of the
canonical serialisation), so every block hash here misses the initial
target and the blocks are invalid shells. -/
def E1 : Env := { hashBytes := fun bs => bs.getD 32 0, decode := fun _ => false }

/-- A concrete hash primitive with large hash values: 2^256 - 1 minus
the low byte of the timestamp, so small timestamps give hashes above the
initial target (valid proof of work). -/
def E2 : Env := { hashBytes := fun bs => 2 ^ 256 - 1 - bs.getD 32 0, decode := fun _ => false }

/-- The all-zero 1280-byte body. -/
def body0 : List Nat := List.replicate BODY_SIZE 0

/-- An invalid shell: child of genesis with hash 1, below the initial
target. -/
def Vb : Block := { time := 1, rand := 0, prev := 0, body := body0 }

/-- A child of the invalid shell Vb (prev = hash_block E1 Vb = 1) that
passes the gate against the zero target stored for Vb. -/
def Cb : Block := { time := 2, rand := 0, prev := 1, body := body0 }

/-- Adds the invalid shell Vb and then its child Cb to a fresh node. -/
def runShellChild : Option NodeState := do
  let s1 ← add_block E1 0 (init_node E1) Vb
  add_block E1 0 s1 Cb

/-- First sibling (hash 1) waiting on the missing parent with hash 3. -/
def Bw : Block := { time := 1, rand := 0, prev := 3, body := body0 }

/-- Second sibling (hash 2) waiting on the same missing parent. -/
def Cw : Block := { time := 2, rand := 0, prev := 3, body := body0 }

/-- The missing parent itself: hash 3, child of genesis. -/
def Pw : Block := { time := 3, rand := 0, prev := 0, body := body0 }

/-- Adds the two siblings Bw and Cw, both gated on the absent parent
with hash 3. -/
def runSiblingWait : Option NodeState := do
  let s1 ← add_block E1 0 (init_node E1) Bw
  add_block E1 0 s1 Cw

/-- Continues runSiblingWait: the parent Pw arrives (promoting only the
surviving wait-list entry Cw), then Bw is received again. -/
def runSiblingWaitLate : Option NodeState := do
  let s2 ← runSiblingWait
  let s3 ← add_block E1 0 s2 Pw
  add_block E1 0 s3 Bw

/-- A valid child of genesis under E2 (hash 2^256 - 2, above the initial
target). -/
def B1v : Block := { time := 1, rand := 0, prev := 2 ^ 256 - 1, body := body0 }

/-- A second valid child of genesis under E2 (hash 2^256 - 3). -/
def B2v : Block := { time := 2, rand := 0, prev := 2 ^ 256 - 1, body := body0 }

/-- Adds the two valid siblings B1v and B2v to a fresh node. -/
def runTwoChildren : Option NodeState := do
  let s1 ← add_block E2 0 (init_node E2) B1v
  add_block E2 0 s1 B2v

-- ## C6: the tip never moves to a block that failed the validity check

/-- The tip is either still the genesis sentinel or an included block
that passed the validity check against the stored maps: its hash hits
the target stored for its parent and its timestamp strictly exceeds the
parent timestamp. -/
def tipOk (E : Env) (s : NodeState) : Prop :=
  s.tip = ZERO_HASH E ∨
  ∃ blk, mlookup s.block s.tip = some blk ∧
    targetD s blk.prev ≤ s.tip ∧ timeD s blk.prev < blk.time

/-- The pieces of the graph invariant needed to carry tipOk through the
worklist loop: the tip is included, every included block has an included
parent, and the tip passed its validity check. -/
structure NodeInv (E : Env) (s : NodeState) : Prop where
  tipIn : (mlookup s.block s.tip).isSome
  parentIn : ∀ h blk, mlookup s.block h = some blk → (mlookup s.block blk.prev).isSome
  tip_valid : tipOk E s


-- ## Theorems

theorem mlookup_minsert_self {α : Type} (l : List (Nat × α)) (k : Nat) (v : α) :
    mlookup (minsert l k v) k = some v := by
  induction l with
  | nil => simp [minsert, mlookup]
  | cons p rest ih =>
      obtain ⟨k', v'⟩ := p
      by_cases h : k' = k
      · simp [minsert, h, mlookup]
      · simp [minsert, h, mlookup, ih]

theorem mlookup_minsert_ne {α : Type} (l : List (Nat × α)) (k k' : Nat) (v : α)
    (h : k ≠ k') : mlookup (minsert l k v) k' = mlookup l k' := by
  induction l with
  | nil => simp [minsert, mlookup, h]
  | cons p rest ih =>
      obtain ⟨k0, v0⟩ := p
      by_cases h0 : k0 = k
      · subst h0
        simp [minsert, mlookup, h]
      · simp [minsert, h0, mlookup, ih]

theorem length_minsert_of_none {α : Type} (l : List (Nat × α)) (k : Nat) (v : α)
    (h : mlookup l k = none) : (minsert l k v).length = l.length + 1 := by
  induction l with
  | nil => simp [minsert]
  | cons p rest ih =>
      obtain ⟨k0, v0⟩ := p
      by_cases h0 : k0 = k
      · simp [mlookup, h0] at h
      · simp [mlookup, h0] at h
        simp [minsert, h0, ih h]

theorem length_minsert_of_some {α : Type} (l : List (Nat × α)) (k : Nat) (v w : α)
    (h : mlookup l k = some w) : (minsert l k v).length = l.length := by
  induction l with
  | nil => simp [mlookup] at h
  | cons p rest ih =>
      obtain ⟨k0, v0⟩ := p
      by_cases h0 : k0 = k
      · simp [minsert, h0]
      · simp [mlookup, h0] at h
        simp [minsert, h0, ih h]

theorem length_mremove_le {α : Type} (l : List (Nat × α)) (k : Nat) :
    (mremove l k).length ≤ l.length := by
  induction l with
  | nil => simp [mremove]
  | cons p rest ih =>
      obtain ⟨k0, v0⟩ := p
      by_cases h0 : k0 = k
      · simp [mremove, h0]; omega
      · simp [mremove, h0]; omega

theorem length_mremove_of_some {α : Type} (l : List (Nat × α)) (k : Nat) (v : α)
    (h : mlookup l k = some v) : (mremove l k).length + 1 ≤ l.length := by
  induction l with
  | nil => simp [mlookup] at h
  | cons p rest ih =>
      obtain ⟨k0, v0⟩ := p
      by_cases h0 : k0 = k
      · simp [mremove, h0]
        have := length_mremove_le rest k
        omega
      · simp [mlookup, h0] at h
        simp [mremove, h0]
        have := ih h
        omega

-- ## C5: difficulty round-trip

/-- C5 (counterexample): the round-trip is not the identity on all of
[1, 2^128]: at D = 2^128 the code, which uses 2^256 - 1 where the claim
says 2^256, returns 2^128 + 1. -/
theorem c5_counterexample :
    target_to_difficulty (difficulty_to_target (2 ^ 128)) = 2 ^ 128 + 1 ∧
    target_to_difficulty (difficulty_to_target (2 ^ 128)) ≠ 2 ^ 128 := by
  constructor
  · decide
  · decide

/-- C5 (amended): for every difficulty D in [1, 2^128 - 1], converting D
to a target with difficulty_to_target and back with target_to_difficulty
yields exactly D, where both conversions use P = 2^256 - 1 (not 2^256):
D(T) = P / (P - T) and T(D) = P - P / D with floor division. -/
theorem c5_roundtrip (d : Nat) (h1 : 1 ≤ d) (h2 : d < 2 ^ 128) :
    target_to_difficulty (difficulty_to_target d) = d := by
  unfold target_to_difficulty difficulty_to_target
  rw [Nat.sub_sub_self (Nat.div_le_self _ _)]
  set q := p256 / d with hq
  have hd2 : d * d ≤ p256 := by
    have hle : d ≤ 2 ^ 128 - 1 := by omega
    have : d * d ≤ (2 ^ 128 - 1) * (2 ^ 128 - 1) := Nat.mul_le_mul hle hle
    have hnum : (2 ^ 128 - 1) * (2 ^ 128 - 1) ≤ p256 := by norm_num [p256]
    omega
  have hdpos : 0 < d := h1
  have hq_ge : d ≤ q := by
    rw [hq, Nat.le_div_iff_mul_le hdpos]
    exact hd2
  have hq_pos : 0 < q := lt_of_lt_of_le hdpos hq_ge
  have h_le : d ≤ p256 / q := by
    rw [Nat.le_div_iff_mul_le hq_pos, Nat.mul_comm]
    exact Nat.div_mul_le_self p256 d
  have h_lt : p256 / q < d + 1 := by
    rw [Nat.div_lt_iff_lt_mul hq_pos]
    have hmod := Nat.div_add_mod p256 d
    have hr : p256 % d < d := Nat.mod_lt _ hdpos
    have : p256 = d * q + p256 % d := by rw [hq]; omega
    have hexp : (d + 1) * q = d * q + q := by ring
    omega
  omega

/-- C5 (witness): the round-trip at the initial difficulty 256. -/
theorem c5_witness :
    1 ≤ 256 ∧ 256 < 2 ^ 128 ∧
    target_to_difficulty (difficulty_to_target 256) = 256 :=
  ⟨by norm_num, by norm_num, c5_roundtrip 256 (by norm_num) (by norm_num)⟩

-- ## C9: the record length formula

set_option maxRecDepth 8000 in
/-- C9 (code bug): len_byte_to_len computes ((L + 1) * 5) in u8
arithmetic, so it wraps: at L = 51 it returns 4, not 5 * (51 + 1) = 260,
and a transaction built by Transaction::new from 260 bytes of data (a
padded length of 260) is mapped back to length 4. -/
theorem c9_len_byte_wraps :
    Transaction.len_byte_to_len 51 = 4 ∧
    Transaction.len_byte_to_len 51 ≠ 5 * (51 + 1) ∧
    (Transaction.new Etriv (List.replicate 260 1)).data.length = 260 ∧
    Transaction.len_byte_to_len
      (Transaction.new Etriv (List.replicate 260 1)).len_byte = 4 := by
  refine ⟨by decide, by decide, by decide, by decide⟩

-- ## C10: totality of extract_transactions

theorem extract_transactions_loop_total (E : Env) (body : List Nat)
    (h : body.length = 1280) :
    ∀ (count index : Nat) (acc : List Transaction),
      ∃ txs, extract_transactions_loop E body index count acc = some txs ∧
        txs.length ≤ count + acc.length := by
  intro count
  induction count with
  | zero =>
      intro index acc
      exact ⟨acc.reverse, rfl, by simp⟩
  | succ k ih =>
      intro index acc
      rw [extract_transactions_loop]
      by_cases hidx : BODY_SIZE ≤ index
      · rw [if_pos hidx]
        exact ⟨acc.reverse, rfl, by simp⟩
      · rw [if_neg hidx]
        have hlt : index < body.length := by
          unfold BODY_SIZE at hidx; omega
        cases hg : body.get? index with
        | none =>
            rw [List.get?_eq_none] at hg
            omega
        | some len_byte =>
            simp only
            by_cases hov : BODY_SIZE < index + 1 + Transaction.len_byte_to_len len_byte
            · rw [if_pos hov]
              exact ⟨acc.reverse, rfl, by simp⟩
            · rw [if_neg hov]
              have hin : index + 1 + Transaction.len_byte_to_len len_byte ≤ body.length := by
                unfold BODY_SIZE at hov; omega
              rw [if_pos hin]
              obtain ⟨txs, h1, h2⟩ := ih (index + 1 + Transaction.len_byte_to_len len_byte)
                (Transaction.new E ((body.drop (index + 1)).take
                  (Transaction.len_byte_to_len len_byte)) :: acc)
              exact ⟨txs, h1, by simp at h2 ⊢; omega⟩

/-- C10: extract_transactions is total on every 1280-byte body: the
parse succeeds (no body index is ever out of bounds, modelled by the
none result of the Option-valued embedding) and the returned vector
holds at most body.value[0] transactions. -/
theorem c10_extract_transactions_total (E : Env) (body : List Nat)
    (h : body.length = 1280) :
    ∃ txs, extract_transactions E body = some txs ∧
      txs.length ≤ body.headD 0 := by
  unfold extract_transactions
  cases hg : body.get? 0 with
  | none =>
      rw [List.get?_eq_none] at hg
      omega
  | some c =>
      have hhead : body.headD 0 = c := by
        cases body with
        | nil => simp at hg
        | cons a l => simp at hg; simp [hg]
      obtain ⟨txs, h1, h2⟩ := extract_transactions_loop_total E body h c 1 []
      exact ⟨txs, h1, by rw [hhead]; simpa using h2⟩

/-- C10 (witness): the all-zero body parses to an empty transaction
list. -/
theorem c10_witness :
    (List.replicate 1280 0).length = 1280 ∧
    ∃ txs, extract_transactions Etriv (List.replicate 1280 0) = some txs ∧
      txs.length ≤ (List.replicate 1280 0).headD 0 :=
  ⟨by rw [List.length_replicate], c10_extract_transactions_total Etriv
    (List.replicate 1280 0) (by rw [List.length_replicate])⟩

-- ## C1: waiting and block are not disjoint after the wait-list overwrite

/-- C1 (code bug): after Bw and Cw wait on the same absent parent, the
wait-list entry of Bw is overwritten by the one of Cw; when the parent
Pw arrives only Cw is promoted, and when Bw is received again after its
parent became included, its hash (1) ends up a key of both the block map
and the waiting map, violating the disjointness invariant the claim
states. -/
theorem c1_waiting_block_overlap :
    hash_block E1 Bw = 1 ∧
    runSiblingWaitLate.map
      (fun s => ((mlookup s.block 1).isSome, (mlookup s.waiting 1).isSome)) =
      some (true, true) := by
  refine ⟨by decide, by decide⟩

-- ## C2: a recorded child is discarded by the next one

/-- C2 (code bug): B1v and B2v are valid blocks (hashes above the
initial target, advancing timestamps) with the same included parent, the
genesis block; after add_block has processed both, children of genesis
holds only the hash of B2v: the insert at the child-link step replaces
the previous vector instead of appending, so the hash of B1v, recorded
first, is discarded. -/
theorem c2_children_overwritten :
    hash_block E2 B1v = 2 ^ 256 - 2 ∧
    hash_block E2 B2v = 2 ^ 256 - 3 ∧
    INITIAL_TARGET ≤ 2 ^ 256 - 3 ∧
    runTwoChildren.map
      (fun s => ((mlookup s.block (2 ^ 256 - 2)).isSome,
                 (mlookup s.block (2 ^ 256 - 3)).isSome,
                 mlookup s.children (ZERO_HASH E2),
                 ((mlookup s.children (ZERO_HASH E2)).getD []).contains (2 ^ 256 - 2))) =
      some (true, true, some [2 ^ 256 - 3], false) := by
  refine ⟨by decide, by decide, by decide, by decide⟩

-- ## C3: a wait-list sibling is dropped

/-- C3 (code bug): Bw (hash 1) and Cw (hash 2) both wait on the same
absent parent (hash 3); both sit in waiting, but the wait-list entry
under the parent is replaced rather than appended to, so it holds only
the hash of Cw and the hash of Bw is gone. -/
theorem c3_wait_list_overwritten :
    hash_block E1 Bw = 1 ∧
    hash_block E1 Cw = 2 ∧
    runSiblingWait.map
      (fun s => ((mlookup s.waiting 1).isSome, (mlookup s.waiting 2).isSome,
                 mlookup s.wait_list 3,
                 ((mlookup s.wait_list 3).getD []).contains 1)) =
      some (true, true, some [2], false) := by
  refine ⟨by decide, by decide, by decide⟩

-- ## C4: a child of an invalid block is included

/-- C4 (code bug): Vb fails the validity check (its hash 1 is below the
initial target stored for genesis), yet its child Cb is still included
into the block map with nonzero work and even becomes the tip, because
the shell insert gives Vb a zero stored target and the child-link and
promotion steps run outside the validity gate. -/
theorem c4_invalid_block_extended :
    hash_block E1 Vb = 1 ∧
    (1 < targetD (init_node E1) Vb.prev) ∧
    hash_block E1 Cb = 2 ∧
    Cb.prev = 1 ∧
    runShellChild.map
      (fun s => ((mlookup s.block 2).isSome, workD s 2, s.tip)) =
      some (true, 1, 2) := by
  refine ⟨by decide, by decide, by decide, by decide, by decide⟩

-- ## C7: the runtime tick overshoots the tip height

/-- C7 (code bug): in the run of runShellChild the runtime (which here
complies with both claim assumptions: rollback lands at a tick at most
the request, tick advances by one) ends at tick 2 while the tip has
height 1: the reorg walk descends through the zero-height invalid shell
Vb and replays two blocks above a rollback to tick 0, so
runtime.get_tick() exceeds and does not equal height[tip] after the call
settles. -/
theorem c7_tick_height_mismatch :
    runShellChild.map (fun s => (s.runtime.tick, heightD s s.tip)) = some (2, 1) ∧
    (2 : Nat) ≠ 1 := by
  refine ⟨by decide, by decide⟩

-- ## Structural lemmas: which fields each phase can touch

theorem computeBlocks_fields (E : Env) :
    ∀ (l : List Nat) (s s' : NodeState), computeBlocks E s l = some s' →
      s'.tip = s.tip ∧ s'.block = s.block ∧ s'.waiting = s.waiting ∧
      s'.wait_list = s.wait_list ∧ s'.children = s.children ∧
      s'.work = s.work ∧ s'.target = s.target ∧ s'.height = s.height ∧
      s'.pool = s.pool := by
  intro l
  induction l with
  | nil =>
      intro s s' h
      simp only [computeBlocks, Option.some.injEq] at h
      subst h
      exact ⟨rfl, rfl, rfl, rfl, rfl, rfl, rfl, rfl, rfl⟩
  | cons x rest ih =>
      intro s s' h
      simp only [computeBlocks] at h
      cases hx : mlookup s.block x with
      | none => rw [hx] at h; exact absurd h (by simp)
      | some blk =>
          rw [hx] at h
          have := ih (compute_block E s blk) s' h
          simpa [compute_block] using this

theorem reorg_fields (E : Env) (s : NodeState) (old_tip new_tip : Nat) (s' : NodeState)
    (h : reorg E s old_tip new_tip = some s') :
    s'.tip = s.tip ∧ s'.block = s.block ∧ s'.waiting = s.waiting ∧
    s'.wait_list = s.wait_list ∧ s'.children = s.children ∧
    s'.work = s.work ∧ s'.target = s.target ∧ s'.height = s.height ∧
    s'.pool = s.pool := by
  simp only [reorg] at h
  split at h
  · cases h
  · split at h
    · cases h
    · split at h
      · cases h
      · split at h
        · split at h
          · cases h
          · have := computeBlocks_fields E _ _ _ h
            simpa using this
        · cases h

theorem u128_sub_eq_sub (a b : Nat) (h1 : b ≤ a) (h2 : a < 2 ^ 128) :
    u128_sub a b = a - b := by
  unfold u128_sub
  have hb : b < 2 ^ 128 := lt_of_le_of_lt h1 h2
  rw [Nat.mod_eq_of_lt h2, Nat.mod_eq_of_lt hb]
  have he : a + 2 ^ 128 - b = (a - b) + 2 ^ 128 := by omega
  rw [he, Nat.add_mod_right, Nat.mod_eq_of_lt (by omega)]

theorem includeValid_parts (E : Env) (s1 : NodeState) (b : Block) (bhash : Nat)
    (s6 : NodeState) (h : includeValid E s1 b bhash = some s6) :
    s6.block = s1.block ∧ s6.waiting = s1.waiting ∧ s6.wait_list = s1.wait_list ∧
    s6.children = s1.children ∧
    s6.work = minsert s1.work bhash (workD s1 b.prev + get_hash_work bhash) ∧
    s6.height = minsert s1.height bhash (heightD s1 b.prev + 1) ∧
    (∃ tv, s6.target = minsert s1.target bhash tv) ∧
    (s6.tip = s1.tip ∨ (s6.tip = bhash ∧ workD s6 s1.tip < workD s6 bhash)) := by
  simp only [includeValid] at h
  split at h
  · cases h
  · split at h
    · cases h
    · split at h
      · -- the tip moves: the reorg only touches results and runtime
        next hguard =>
        have hf := reorg_fields E _ _ _ _ h
        obtain ⟨ht, hbl, hwt, hwl, hch, hwk, htg, hht, hpl⟩ := hf
        refine ⟨hbl, hwt, hwl, hch, hwk, hht, ⟨_, htg⟩, Or.inr ⟨ht, ?_⟩⟩
        simp only [workD, hwk]
        exact hguard
      · simp only [Option.some.injEq] at h
        subst h
        exact ⟨rfl, rfl, rfl, rfl, rfl, rfl, ⟨_, rfl⟩, Or.inl rfl⟩

theorem retargetValue_spec (s2 : NodeState) (b : Block) (bhash : Nat) (tv : Nat)
    (h : retargetValue s2 b bhash = some tv) :
    (¬(BLOCKS_PER_PERIOD < heightD s2 bhash ∧
        heightD s2 bhash % BLOCKS_PER_PERIOD = 1) →
      tv = targetD s2 b.prev) ∧
    (∀ cp cpb,
      (BLOCKS_PER_PERIOD < heightD s2 bhash ∧
        heightD s2 bhash % BLOCKS_PER_PERIOD = 1) →
      walkPrevN s2.block (BLOCKS_PER_PERIOD - 1) b.prev = some cp →
      mlookup s2.block cp = some cpb →
      cpb.time ≤ b.time → b.time < 2 ^ 128 →
      tv = compute_next_target (targetD s2 b.prev)
        (2 ^ 32 * TIME_PER_PERIOD / (b.time - cpb.time))) := by
  simp only [retargetValue] at h
  split at h
  · next hcond =>
    constructor
    · intro hn
      exact absurd ⟨hcond.2.1, hcond.2.2⟩ hn
    · intro cp cpb _ hwalk hcp hle hlt
      rw [hwalk] at h
      simp only at h
      rw [hcp] at h
      simp only at h
      rw [u128_sub_eq_sub b.time cpb.time hle hlt] at h
      split at h
      · cases h
      · split at h
        · cases h
        · simp only [Option.some.injEq] at h
          omega
  · next hcond =>
    constructor
    · intro _
      simp only [Option.some.injEq] at h
      omega
    · intro cp cpb hc _ _ _ _
      exact absurd ⟨by omega, hc.1, hc.2⟩ hcond

theorem includeValid_target (E : Env) (s1 : NodeState) (b : Block) (bhash : Nat)
    (s6 : NodeState) (h : includeValid E s1 b bhash = some s6) :
    (¬(BLOCKS_PER_PERIOD < heightD s1 b.prev + 1 ∧
        (heightD s1 b.prev + 1) % BLOCKS_PER_PERIOD = 1) →
      mlookup s6.target bhash = some (targetD s1 b.prev)) ∧
    (∀ cp cpb,
      (BLOCKS_PER_PERIOD < heightD s1 b.prev + 1 ∧
        (heightD s1 b.prev + 1) % BLOCKS_PER_PERIOD = 1) →
      walkPrevN s1.block (BLOCKS_PER_PERIOD - 1) b.prev = some cp →
      mlookup s1.block cp = some cpb →
      cpb.time ≤ b.time → b.time < 2 ^ 128 →
      mlookup s6.target bhash = some (compute_next_target (targetD s1 b.prev)
        (2 ^ 32 * TIME_PER_PERIOD / (b.time - cpb.time)))) := by
  simp only [includeValid] at h
  split at h
  · cases h
  · split at h
    · cases h
    · next tv heq =>
      have hh : heightD { s1 with
          work := minsert s1.work bhash (workD s1 b.prev + get_hash_work bhash),
          height := minsert s1.height bhash (heightD s1 b.prev + 1) } bhash =
          heightD s1 b.prev + 1 := by
        simp [heightD, mlookup_minsert_self]
      have hspec := retargetValue_spec _ b bhash tv heq
      rw [hh] at hspec
      have hlook : mlookup s6.target bhash = some tv := by
        split at h
        · have hf := reorg_fields E _ _ _ _ h
          rw [hf.2.2.2.2.2.2.1]
          exact mlookup_minsert_self _ _ _
        · simp only [Option.some.injEq] at h
          subst h
          exact mlookup_minsert_self _ _ _
      constructor
      · intro hn
        rw [hlook, hspec.1 hn]
        rfl
      · intro cp cpb hc hwalk hcp hle hlt
        rw [hlook, hspec.2 cp cpb hc hwalk hcp hle hlt]
        rfl

theorem gateOut_lookups (E : Env) (s1 : NodeState) (b : Block) (bhash : Nat)
    (s6 : NodeState)
    (heq : (if targetD s1 b.prev ≤ bhash ∧ timeD s1 b.prev < b.time then
              includeValid E s1 b bhash else some s1) = some s6) :
    s6.block = s1.block ∧ s6.waiting = s1.waiting ∧ s6.wait_list = s1.wait_list ∧
    s6.children = s1.children ∧
    (∀ h, h ≠ bhash →
      mlookup s6.target h = mlookup s1.target h ∧
      mlookup s6.work h = mlookup s1.work h ∧
      mlookup s6.height h = mlookup s1.height h) ∧
    (s6.tip = s1.tip ∨
      (s6.tip = bhash ∧ workD s6 s1.tip < workD s6 bhash ∧
       targetD s1 b.prev ≤ bhash ∧ timeD s1 b.prev < b.time)) := by
  split at heq
  · next hgate =>
    obtain ⟨hbl, hwt, hwl, hch, hwk, hht, ⟨tv, htg⟩, htip⟩ :=
      includeValid_parts E s1 b bhash s6 heq
    refine ⟨hbl, hwt, hwl, hch, ?_, ?_⟩
    · intro h hne
      refine ⟨?_, ?_, ?_⟩
      · rw [htg, mlookup_minsert_ne _ _ _ _ (fun he => hne he.symm)]
      · rw [hwk, mlookup_minsert_ne _ _ _ _ (fun he => hne he.symm)]
      · rw [hht, mlookup_minsert_ne _ _ _ _ (fun he => hne he.symm)]
    · rcases htip with ht | ⟨ht, hwlt⟩
      · exact Or.inl ht
      · exact Or.inr ⟨ht, hwlt, hgate.1, hgate.2⟩
  · simp only [Option.some.injEq] at heq
    subst heq
    exact ⟨rfl, rfl, rfl, rfl, fun h _ => ⟨rfl, rfl, rfl⟩, Or.inl rfl⟩

theorem addLoopF_mono (E : Env) (now : Nat) :
    ∀ (fuel : Nat) (s : NodeState) (stack : List Block) (s' : NodeState),
      addLoopF E now fuel s stack = Res.ok s' →
      (∀ h blk, mlookup s.block h = some blk → mlookup s'.block h = some blk) ∧
      (∀ h, (mlookup s.block h).isSome →
        mlookup s'.target h = mlookup s.target h ∧
        mlookup s'.work h = mlookup s.work h ∧
        mlookup s'.height h = mlookup s.height h) := by
  intro fuel
  induction fuel with
  | zero =>
      intro s stack s' h
      cases stack with
      | nil =>
          simp only [addLoopF, Res.ok.injEq] at h
          subst h
          exact ⟨fun h blk hh => hh, fun h _ => ⟨rfl, rfl, rfl⟩⟩
      | cons b rest => cases h
  | succ fuel ih =>
      intro s stack s' h
      cases stack with
      | nil =>
          simp only [addLoopF, Res.ok.injEq] at h
          subst h
          exact ⟨fun h blk hh => hh, fun h _ => ⟨rfl, rfl, rfl⟩⟩
      | cons b rest =>
          simp only [addLoopF] at h
          split at h
          · exact ih s rest s' h
          · split at h
            · exact ih s rest s' h
            · -- the dedup check failed, so the block hash is fresh
              next hdup =>
              have hfresh : mlookup s.block (hash_block E b) = none := by
                cases hx : mlookup s.block (hash_block E b) with
                | none => rfl
                | some blk => rw [hx] at hdup; simp at hdup
              split at h
              · -- parent present: the include branch
                next P hpar =>
                split at h
                · cases h
                · next s6 heq =>
                  have hout := gateOut_lookups E _ b (hash_block E b) s6 heq
                  obtain ⟨hbl, hwt, hwl, hch, hlk, _⟩ := hout
                  -- lookups of the pre-recursion state against s
                  have hblk : ∀ h2 blk, mlookup s.block h2 = some blk →
                      mlookup s6.block h2 = some blk := by
                    intro h2 blk hh
                    have hne : h2 ≠ hash_block E b := by
                      intro he; rw [he, hfresh] at hh; cases hh
                    rw [hbl]
                    simp only
                    rw [mlookup_minsert_ne _ _ _ _ (fun he => hne he.symm)]
                    exact hh
                  have hmaps : ∀ h2, (mlookup s.block h2).isSome →
                      mlookup s6.target h2 = mlookup s.target h2 ∧
                      mlookup s6.work h2 = mlookup s.work h2 ∧
                      mlookup s6.height h2 = mlookup s.height h2 := by
                    intro h2 hh
                    have hne : h2 ≠ hash_block E b := by
                      intro he; rw [he, hfresh] at hh; cases hh
                    obtain ⟨ht, hw, hg⟩ := hlk h2 hne
                    refine ⟨?_, ?_, ?_⟩
                    · rw [ht]; simp only
                      rw [mlookup_minsert_ne _ _ _ _ (fun he => hne he.symm)]
                    · rw [hw]; simp only
                      rw [mlookup_minsert_ne _ _ _ _ (fun he => hne he.symm)]
                    · rw [hg]; simp only
                      rw [mlookup_minsert_ne _ _ _ _ (fun he => hne he.symm)]
                  split at h
                  · -- dependants promoted
                    split at h
                    · cases h
                    · next w2 stack2 hprom =>
                      obtain ⟨ih1, ih2⟩ := ih _ stack2 s' h
                      refine ⟨?_, ?_⟩
                      · intro h2 blk hh
                        exact ih1 h2 blk (by simpa [hch] using hblk h2 blk hh)
                      · intro h2 hh
                        have hh6 : (mlookup s6.block h2).isSome := by
                          cases hx : mlookup s.block h2 with
                          | none => rw [hx] at hh; cases hh
                          | some blk => simp [hblk h2 blk hx]
                        obtain ⟨it, iw, ig⟩ := ih2 h2 (by simpa [hch] using hh6)
                        obtain ⟨mt, mw, mg⟩ := hmaps h2 hh
                        exact ⟨by rw [it]; exact mt, by rw [iw]; exact mw,
                               by rw [ig]; exact mg⟩
                  · -- no dependants
                    obtain ⟨ih1, ih2⟩ := ih _ rest s' h
                    refine ⟨?_, ?_⟩
                    · intro h2 blk hh
                      exact ih1 h2 blk (by simpa [hch] using hblk h2 blk hh)
                    · intro h2 hh
                      have hh6 : (mlookup s6.block h2).isSome := by
                        cases hx : mlookup s.block h2 with
                        | none => rw [hx] at hh; cases hh
                        | some blk => simp [hblk h2 blk hx]
                      obtain ⟨it, iw, ig⟩ := ih2 h2 (by simpa [hch] using hh6)
                      obtain ⟨mt, mw, mg⟩ := hmaps h2 hh
                      exact ⟨by rw [it]; exact mt, by rw [iw]; exact mw,
                             by rw [ig]; exact mg⟩
              · -- parent absent: only waiting and wait_list change
                split at h
                · have hres := ih _ rest s' h
                  exact hres
                · have hres := ih _ rest s' h
                  exact hres

/-- C8: for every valid block included by add_block with an included
parent, the stored target of the new block is recomputed exactly when
its height h satisfies h > BLOCKS_PER_PERIOD and h mod BLOCKS_PER_PERIOD
= 1, using the scale 2^32 * TIME_PER_PERIOD / elapsed with elapsed
measured to the checkpoint ancestor BLOCKS_PER_PERIOD - 1 prev steps
above the parent; in every other case the stored target equals the
parent target. -/
theorem c8_retarget_rule (E : Env) (now : Nat) (s : NodeState) (b : Block) (P : Block)
    (s' : NodeState)
    (hrun : add_block E now s b = some s')
    (hfut : b.time < now + DELAY_TOLERANCE)
    (hnew : mlookup s.block (hash_block E b) = none)
    (hpar : mlookup s.block b.prev = some P)
    (hpow : targetD s b.prev ≤ hash_block E b)
    (htime : P.time < b.time) :
    (¬(BLOCKS_PER_PERIOD < heightD s b.prev + 1 ∧
        (heightD s b.prev + 1) % BLOCKS_PER_PERIOD = 1) →
      mlookup s'.target (hash_block E b) = some (targetD s b.prev)) ∧
    (∀ cp cpb,
      (BLOCKS_PER_PERIOD < heightD s b.prev + 1 ∧
        (heightD s b.prev + 1) % BLOCKS_PER_PERIOD = 1) →
      walkPrevN (minsert s.block (hash_block E b) b) (BLOCKS_PER_PERIOD - 1) b.prev = some cp →
      mlookup (minsert s.block (hash_block E b) b) cp = some cpb →
      cpb.time ≤ b.time → b.time < 2 ^ 128 →
      mlookup s'.target (hash_block E b) =
        some (compute_next_target (targetD s b.prev)
          (2 ^ 32 * TIME_PER_PERIOD / (b.time - cpb.time)))) := by
  have hbne : b.prev ≠ hash_block E b := by
    intro he
    rw [he, hnew] at hpar
    cases hpar
  have hok : addLoopF E now (addBlockFuel s) s [b] = Res.ok s' := by
    unfold add_block at hrun
    cases hres : addLoopF E now (addBlockFuel s) s [b] with
    | ok t =>
        rw [hres] at hrun
        simp only [Option.some.injEq] at hrun
        subst hrun
        rfl
    | panic => rw [hres] at hrun; cases hrun
    | oof => rw [hres] at hrun; cases hrun
  obtain ⟨f, hf⟩ : ∃ f, addBlockFuel s = f + 1 :=
    ⟨addBlockFuel s - 1, by unfold addBlockFuel; omega⟩
  rw [hf] at hok
  simp only [addLoopF] at hok
  rw [if_neg (by omega : ¬(now + DELAY_TOLERANCE ≤ b.time))] at hok
  rw [hnew] at hok
  simp only [Option.isSome_none, Bool.false_eq_true, if_false] at hok
  rw [hpar] at hok
  simp only at hok
  split at hok
  · cases hok
  · next s6 heq =>
    -- the gate holds, so the if in heq took the includeValid branch
    have htg1 : targetD { s with
        block := minsert s.block (hash_block E b) b,
        work := minsert s.work (hash_block E b) 0,
        height := minsert s.height (hash_block E b) 0,
        target := minsert s.target (hash_block E b) 0,
        children := minsert s.children (hash_block E b) [] } b.prev = targetD s b.prev := by
      simp [targetD, mlookup_minsert_ne _ _ _ _ (fun he => hbne he.symm)]
    have htm1 : timeD { s with
        block := minsert s.block (hash_block E b) b,
        work := minsert s.work (hash_block E b) 0,
        height := minsert s.height (hash_block E b) 0,
        target := minsert s.target (hash_block E b) 0,
        children := minsert s.children (hash_block E b) [] } b.prev = P.time := by
      simp [timeD, mlookup_minsert_ne _ _ _ _ (fun he => hbne he.symm), hpar]
    rw [if_pos (by rw [htg1, htm1]; exact ⟨hpow, htime⟩)] at heq
    have hIV := includeValid_target E _ b (hash_block E b) s6 heq
    have hhp1 : heightD { s with
        block := minsert s.block (hash_block E b) b,
        work := minsert s.work (hash_block E b) 0,
        height := minsert s.height (hash_block E b) 0,
        target := minsert s.target (hash_block E b) 0,
        children := minsert s.children (hash_block E b) [] } b.prev = heightD s b.prev := by
      simp [heightD, mlookup_minsert_ne _ _ _ _ (fun he => hbne he.symm)]
    rw [hhp1, htg1] at hIV
    -- the rest of the loop leaves the target of the fresh hash unchanged
    have hstable : mlookup s'.target (hash_block E b) = mlookup s6.target (hash_block E b) := by
      have hin6 : mlookup s6.block (hash_block E b) = some b := by
        have hbl := (includeValid_parts E _ b (hash_block E b) s6 heq).1
        rw [hbl]
        exact mlookup_minsert_self _ _ _
      split at hok
      · split at hok
        · cases hok
        · next w2 stack2 hprom =>
          have hmono := addLoopF_mono E now f _ stack2 s' hok
          have := (hmono.2 (hash_block E b) (by simp [hin6])).1
          rw [this]
      · simp only [Res.ok.injEq] at hok
        rw [← hok]
    refine ⟨?_, ?_⟩
    · intro hn
      rw [hstable]
      exact hIV.1 hn
    · intro cp cpb hc hwalk hcp hle hlt
      rw [hstable]
      exact hIV.2 cp cpb hc hwalk hcp hle hlt

/-- C8 (witness): the first valid block over genesis keeps the parent
target (height 1 is not a period boundary). -/
theorem c8_witness :
    (add_block E2 0 (init_node E2) B1v).isSome ∧
    ∀ s', add_block E2 0 (init_node E2) B1v = some s' →
      mlookup s'.target (hash_block E2 B1v) = some (targetD (init_node E2) B1v.prev) := by
  refine ⟨by decide, ?_⟩
  intro s' hs'
  exact (c8_retarget_rule E2 0 (init_node E2) B1v (GENESIS_BLOCK E2) s' hs'
    (by decide) (by decide) rfl (by decide) (by decide)).1 (by decide)

theorem init_node_inv (E : Env) : NodeInv E (init_node E) := by
  refine ⟨?_, ?_, Or.inl rfl⟩
  · simp [init_node, mlookup]
  · intro h blk hh
    simp only [init_node, mlookup] at hh ⊢
    split at hh
    · next he =>
      simp only [Option.some.injEq] at hh
      subst hh
      simp [GENESIS_BLOCK, he]
    · cases hh

theorem includeStep_inv (E : Env) (s : NodeState) (b : Block) (P : Block) (s6 : NodeState)
    (hfresh : mlookup s.block (hash_block E b) = none)
    (hpar : mlookup s.block b.prev = some P)
    (hinv : NodeInv E s)
    (heq : (if targetD { s with
          block := minsert s.block (hash_block E b) b,
          work := minsert s.work (hash_block E b) 0,
          height := minsert s.height (hash_block E b) 0,
          target := minsert s.target (hash_block E b) 0,
          children := minsert s.children (hash_block E b) [] } b.prev ≤ hash_block E b ∧
        timeD { s with
          block := minsert s.block (hash_block E b) b,
          work := minsert s.work (hash_block E b) 0,
          height := minsert s.height (hash_block E b) 0,
          target := minsert s.target (hash_block E b) 0,
          children := minsert s.children (hash_block E b) [] } b.prev < b.time then
        includeValid E { s with
          block := minsert s.block (hash_block E b) b,
          work := minsert s.work (hash_block E b) 0,
          height := minsert s.height (hash_block E b) 0,
          target := minsert s.target (hash_block E b) 0,
          children := minsert s.children (hash_block E b) [] } b (hash_block E b)
      else some { s with
          block := minsert s.block (hash_block E b) b,
          work := minsert s.work (hash_block E b) 0,
          height := minsert s.height (hash_block E b) 0,
          target := minsert s.target (hash_block E b) 0,
          children := minsert s.children (hash_block E b) [] }) = some s6) :
    NodeInv E s6 ∧ (s6.tip = s.tip ∨ workD s s.tip < workD s6 s6.tip) ∧
    workD s6 s.tip = workD s s.tip := by
  have hbne : b.prev ≠ hash_block E b := by
    intro he
    rw [he, hfresh] at hpar
    cases hpar
  obtain ⟨hbl, hwt, hwl, hch, hlk, htip⟩ := gateOut_lookups E _ b (hash_block E b) s6 heq
  have hblk_at : mlookup s6.block (hash_block E b) = some b := by
    rw [hbl]
    exact mlookup_minsert_self _ _ _
  have hblk_ne : ∀ h2, h2 ≠ hash_block E b →
      mlookup s6.block h2 = mlookup s.block h2 := by
    intro h2 hne
    rw [hbl]
    exact mlookup_minsert_ne _ _ _ _ (fun he => hne he.symm)
  have htgt_ne : ∀ h2, h2 ≠ hash_block E b →
      mlookup s6.target h2 = mlookup s.target h2 := by
    intro h2 hne
    rw [(hlk h2 hne).1]
    exact mlookup_minsert_ne _ _ _ _ (fun he => hne he.symm)
  have hwk_ne : ∀ h2, h2 ≠ hash_block E b →
      mlookup s6.work h2 = mlookup s.work h2 := by
    intro h2 hne
    rw [(hlk h2 hne).2.1]
    exact mlookup_minsert_ne _ _ _ _ (fun he => hne he.symm)
  have htip_ne : s.tip ≠ hash_block E b := by
    intro he
    have := hinv.tipIn
    rw [he, hfresh] at this
    cases this
  refine ⟨⟨?_, ?_, ?_⟩, ?_, ?_⟩
  · -- the tip of s6 is included
    rcases htip with ht | ⟨ht, _⟩
    · rw [ht]
      show (mlookup s6.block s.tip).isSome
      rw [hblk_ne s.tip htip_ne]
      exact hinv.tipIn
    · rw [ht, hblk_at]
      rfl
  · -- every included block has an included parent
    intro h2 blk hh
    by_cases hc : h2 = hash_block E b
    · rw [hc, hblk_at] at hh
      simp only [Option.some.injEq] at hh
      subst hh
      rw [hblk_ne b.prev hbne, hpar]
      rfl
    · rw [hblk_ne h2 hc] at hh
      have hp := hinv.parentIn h2 blk hh
      have hpne : blk.prev ≠ hash_block E b := by
        intro he
        rw [he, hfresh] at hp
        cases hp
      rw [hblk_ne blk.prev hpne]
      exact hp
  · -- the tip of s6 passed its validity check
    rcases htip with ht | ⟨ht, _, hgt, hgtm⟩
    · show tipOk E s6
      rcases hinv.tip_valid with hz | ⟨blk, hb1, hb2, hb3⟩
      · exact Or.inl (by rw [ht]; exact hz)
      · refine Or.inr ⟨blk, ?_, ?_, ?_⟩
        · rw [ht, hblk_ne s.tip htip_ne]
          exact hb1
        · have hpin := hinv.parentIn s.tip blk hb1
          have hpne : blk.prev ≠ hash_block E b := by
            intro he
            rw [he, hfresh] at hpin
            cases hpin
          show targetD s6 blk.prev ≤ s6.tip
          rw [ht]
          unfold targetD
          rw [htgt_ne blk.prev hpne]
          exact hb2
        · have hpin := hinv.parentIn s.tip blk hb1
          have hpne : blk.prev ≠ hash_block E b := by
            intro he
            rw [he, hfresh] at hpin
            cases hpin
          show timeD s6 blk.prev < blk.time
          unfold timeD
          rw [hblk_ne blk.prev hpne]
          exact hb3
    · refine Or.inr ⟨b, ?_, ?_, ?_⟩
      · rw [ht]
        exact hblk_at
      · show targetD s6 b.prev ≤ s6.tip
        rw [ht]
        unfold targetD
        rw [htgt_ne b.prev hbne]
        have : targetD { s with
            block := minsert s.block (hash_block E b) b,
            work := minsert s.work (hash_block E b) 0,
            height := minsert s.height (hash_block E b) 0,
            target := minsert s.target (hash_block E b) 0,
            children := minsert s.children (hash_block E b) [] } b.prev =
            (mlookup s.target b.prev).getD 0 := by
          unfold targetD
          simp only
          rw [mlookup_minsert_ne _ _ _ _ (fun he => hbne he.symm)]
        rw [this] at hgt
        exact hgt
      · show timeD s6 b.prev < b.time
        unfold timeD
        rw [hblk_ne b.prev hbne]
        have : timeD { s with
            block := minsert s.block (hash_block E b) b,
            work := minsert s.work (hash_block E b) 0,
            height := minsert s.height (hash_block E b) 0,
            target := minsert s.target (hash_block E b) 0,
            children := minsert s.children (hash_block E b) [] } b.prev =
            ((mlookup s.block b.prev).map Block.time).getD 0 := by
          unfold timeD
          simp only
          rw [mlookup_minsert_ne _ _ _ _ (fun he => hbne he.symm)]
        rw [this] at hgtm
        exact hgtm
  · -- the tip stayed or moved to strictly larger work
    rcases htip with ht | ⟨ht, hwlt, _⟩
    · exact Or.inl ht
    · refine Or.inr ?_
      have h1 : workD s6 s.tip = workD s s.tip := by
        unfold workD
        rw [hwk_ne s.tip htip_ne]
      rw [ht]
      calc workD s s.tip = workD s6 s.tip := h1.symm
        _ < workD s6 (hash_block E b) := hwlt
  · -- the work recorded for the old tip is untouched
    unfold workD
    rw [hwk_ne s.tip htip_ne]

theorem addLoopF_inv (E : Env) (now : Nat) :
    ∀ (fuel : Nat) (s : NodeState) (stack : List Block) (s' : NodeState),
      NodeInv E s → addLoopF E now fuel s stack = Res.ok s' →
      NodeInv E s' ∧ (s'.tip = s.tip ∨ workD s s.tip < workD s' s'.tip) := by
  intro fuel
  induction fuel with
  | zero =>
      intro s stack s' hinv h
      cases stack with
      | nil =>
          simp only [addLoopF, Res.ok.injEq] at h
          subst h
          exact ⟨hinv, Or.inl rfl⟩
      | cons b rest => cases h
  | succ fuel ih =>
      intro s stack s' hinv h
      cases stack with
      | nil =>
          simp only [addLoopF, Res.ok.injEq] at h
          subst h
          exact ⟨hinv, Or.inl rfl⟩
      | cons b rest =>
          simp only [addLoopF] at h
          split at h
          · exact ih s rest s' hinv h
          · split at h
            · exact ih s rest s' hinv h
            · next hdup =>
              have hfresh : mlookup s.block (hash_block E b) = none := by
                cases hx : mlookup s.block (hash_block E b) with
                | none => rfl
                | some blk => rw [hx] at hdup; simp at hdup
              split at h
              · next P hpar =>
                split at h
                · cases h
                · next s6 heq =>
                  obtain ⟨hinv6, hrel6, hst6⟩ :=
                    includeStep_inv E s b P s6 hfresh hpar hinv heq
                  split at h
                  · split at h
                    · cases h
                    · next w2 stack2 hprom =>
                      have hinvx : NodeInv E { s6 with
                          children := minsert s6.children b.prev [hash_block E b],
                          waiting := w2,
                          wait_list := mremove s6.wait_list (hash_block E b) } :=
                        ⟨hinv6.tipIn, hinv6.parentIn, hinv6.tip_valid⟩
                      obtain ⟨hinv', hrel'⟩ := ih _ stack2 s' hinvx h
                      refine ⟨hinv', ?_⟩
                      have hmono := addLoopF_mono E now fuel _ stack2 s' h
                      have hstw : mlookup s'.work s6.tip = mlookup s6.work s6.tip :=
                        (hmono.2 s6.tip hinv6.tipIn).2.1
                      rcases hrel' with hl' | hr'
                      · rcases hrel6 with hl6 | hr6
                        · exact Or.inl (hl'.trans hl6)
                        · refine Or.inr ?_
                          have : workD s' s'.tip = workD s6 s6.tip := by
                            rw [hl']
                            unfold workD
                            rw [hstw]
                          rw [this]
                          exact hr6
                      · rcases hrel6 with hl6 | hr6
                        · refine Or.inr ?_
                          have : workD s s.tip = workD s6 s6.tip := by
                            rw [hl6, ← hst6]
                          rw [this]
                          exact hr'
                        · exact Or.inr (lt_trans hr6 hr')
                  · have hinvx : NodeInv E { s6 with
                        children := minsert s6.children b.prev [hash_block E b] } :=
                      ⟨hinv6.tipIn, hinv6.parentIn, hinv6.tip_valid⟩
                    obtain ⟨hinv', hrel'⟩ := ih _ rest s' hinvx h
                    refine ⟨hinv', ?_⟩
                    have hmono := addLoopF_mono E now fuel _ rest s' h
                    have hstw : mlookup s'.work s6.tip = mlookup s6.work s6.tip :=
                      (hmono.2 s6.tip hinv6.tipIn).2.1
                    rcases hrel' with hl' | hr'
                    · rcases hrel6 with hl6 | hr6
                      · exact Or.inl (hl'.trans hl6)
                      · refine Or.inr ?_
                        have : workD s' s'.tip = workD s6 s6.tip := by
                          rw [hl']
                          unfold workD
                          rw [hstw]
                        rw [this]
                        exact hr6
                    · rcases hrel6 with hl6 | hr6
                      · refine Or.inr ?_
                        have : workD s s.tip = workD s6 s6.tip := by
                          rw [hl6, ← hst6]
                        rw [this]
                        exact hr'
                      · exact Or.inr (lt_trans hr6 hr')
              · split at h
                · have hinvx : NodeInv E { s with
                      waiting := minsert s.waiting (hash_block E b) b,
                      wait_list := minsert s.wait_list b.prev [hash_block E b] } :=
                    ⟨hinv.tipIn, hinv.parentIn, hinv.tip_valid⟩
                  have hres := ih _ rest s' hinvx h
                  exact hres
                · exact ih s rest s' hinv h

theorem add_block_ok (E : Env) (now : Nat) (s : NodeState) (b : Block) (s' : NodeState)
    (h : add_block E now s b = some s') :
    addLoopF E now (addBlockFuel s) s [b] = Res.ok s' := by
  unfold add_block at h
  cases hres : addLoopF E now (addBlockFuel s) s [b] with
  | ok t =>
      rw [hres] at h
      simp only [Option.some.injEq] at h
      subst h
      rfl
  | panic => rw [hres] at h; cases h
  | oof => rw [hres] at h; cases h

theorem reachable_inv (E : Env) : ∀ s, Reachable E s → NodeInv E s := by
  intro s hr
  induction hr with
  | init => exact init_node_inv E
  | step now b hprev hab ih =>
      have hok := add_block_ok E now _ b _ hab
      exact (addLoopF_inv E now _ _ _ _ ih hok).1

/-- C6: in every state reachable by any sequence of add_block calls from
the initial node state, the tip is never a block that failed the
validity check (it is genesis or a block whose hash hits the target
stored for its parent and whose time exceeds the parent time), and along
every call the tip only moves to a block whose accumulated work strictly
exceeds the work of the current tip. -/
theorem c6_tip_validity (E : Env) :
    (∀ s, Reachable E s → tipOk E s) ∧
    (∀ (s : NodeState) (now : Nat) (b : Block) (s' : NodeState),
      Reachable E s → add_block E now s b = some s' →
      s'.tip = s.tip ∨ workD s s.tip < workD s' s'.tip) := by
  constructor
  · intro s hr
    exact (reachable_inv E s hr).tip_valid
  · intro s now b s' hr hab
    have hok := add_block_ok E now s b s' hab
    exact (addLoopF_inv E now _ s [b] s' (reachable_inv E s hr) hok).2

/-- C6 (witness): the initial state has a valid tip, and adding the
concrete block Vb either keeps the tip or strictly raises its work. -/
theorem c6_witness :
    tipOk E1 (init_node E1) ∧
    (add_block E1 0 (init_node E1) Vb).isSome ∧
    (∀ s', add_block E1 0 (init_node E1) Vb = some s' →
      s'.tip = (init_node E1).tip ∨
      workD (init_node E1) (init_node E1).tip < workD s' s'.tip) :=
  ⟨(c6_tip_validity E1).1 _ Reachable.init, by decide,
   fun s' h => (c6_tip_validity E1).2 _ 0 Vb s' Reachable.init h⟩

-- ## The fuel chosen by add_block never runs out

theorem promote_length :
    ∀ (l : List Nat) (waiting : List (Nat × Block)) (stack : List Block)
      (w2 : List (Nat × Block)) (st2 : List Block),
      promote waiting stack l = some (w2, st2) →
      w2.length + st2.length ≤ waiting.length + stack.length := by
  intro l
  induction l with
  | nil =>
      intro waiting stack w2 st2 h
      simp only [promote, Option.some.injEq, Prod.mk.injEq] at h
      obtain ⟨h1, h2⟩ := h
      subst h1
      subst h2
      omega
  | cons x rest ih =>
      intro waiting stack w2 st2 h
      simp only [promote] at h
      cases hx : mlookup waiting x with
      | none => rw [hx] at h; cases h
      | some blk =>
          rw [hx] at h
          have hrec := ih (mremove waiting x) (blk :: stack) w2 st2 h
          have hrem := length_mremove_of_some waiting x blk hx
          simp only [List.length_cons] at hrec
          omega

theorem addLoopF_no_oof (E : Env) (now : Nat) :
    ∀ (n : Nat) (s : NodeState) (stack : List Block),
      (s.waiting.length + stack.length) * (s.waiting.length + stack.length) +
        stack.length < n →
      addLoopF E now n s stack ≠ Res.oof := by
  intro n
  induction n with
  | zero =>
      intro s stack h
      exact absurd h (Nat.not_lt_zero _)
  | succ n ih =>
      intro s stack hb
      cases stack with
      | nil => simp [addLoopF]
      | cons b rest =>
          have hexp : (s.waiting.length + (rest.length + 1)) *
              (s.waiting.length + (rest.length + 1)) =
              (s.waiting.length + rest.length) * (s.waiting.length + rest.length) +
              2 * (s.waiting.length + rest.length) + 1 := by ring
          simp only [List.length_cons] at hb
          simp only [addLoopF]
          split
          · exact ih s rest (by omega)
          · split
            · exact ih s rest (by omega)
            · split
              · -- parent present
                split
                · simp
                · next s6 heq =>
                  obtain ⟨_, hwt, _, _, _, _⟩ :=
                    gateOut_lookups E _ b (hash_block E b) s6 heq
                  have hwlen : s6.waiting.length = s.waiting.length := by
                    rw [hwt]
                  split
                  · split
                    · simp
                    · next w2 stack2 hprom =>
                      have hple := promote_length _ _ _ _ _ hprom
                      rw [hwlen] at hple
                      have hsq : (w2.length + stack2.length) *
                          (w2.length + stack2.length) ≤
                          (s.waiting.length + rest.length) *
                          (s.waiting.length + rest.length) :=
                        Nat.mul_le_mul hple hple
                      have hb2 : (w2.length + stack2.length) *
                          (w2.length + stack2.length) + stack2.length < n := by
                        omega
                      exact ih _ stack2 hb2
                  · have hb2 : (s6.waiting.length + rest.length) *
                        (s6.waiting.length + rest.length) + rest.length < n := by
                      rw [hwlen]
                      omega
                    exact ih _ rest hb2
              · -- parent absent
                split
                · next hnw =>
                  have hnone : mlookup s.waiting (hash_block E b) = none := by
                    cases hx : mlookup s.waiting (hash_block E b) with
                    | none => rfl
                    | some blk => rw [hx] at hnw; simp at hnw
                  have hlen := length_minsert_of_none s.waiting (hash_block E b) b hnone
                  have hb2 : ((minsert s.waiting (hash_block E b) b).length + rest.length) *
                      ((minsert s.waiting (hash_block E b) b).length + rest.length) +
                      rest.length < n := by
                    rw [hlen]
                    have heq2 : s.waiting.length + 1 + rest.length =
                        s.waiting.length + (rest.length + 1) := by omega
                    rw [heq2]
                    omega
                  exact ih _ rest hb2
                · exact ih s rest (by omega)

/-- The fuel passed by add_block to the worklist loop always suffices:
a none result of add_block can only be a modelled Rust panic or
divergence, never fuel exhaustion. -/
theorem add_block_fuel_suffices (E : Env) (now : Nat) (s : NodeState) (b : Block) :
    addLoopF E now (addBlockFuel s) s [b] ≠ Res.oof := by
  apply addLoopF_no_oof
  unfold addBlockFuel
  simp only [List.length_cons, List.length_nil, Nat.zero_add]
  omega
